import Mathlib

/-!
Verification of the manual forward/backward pass for an L-layer sigmoid
network (notebook `8.4-forward-and-backward-pass`).

Matrices are modelled as a shape (`rows`, `cols`) together with a total
entry function `Nat → Nat → ℝ`; the torch tensor operations used by the
notebook (`torch.matmul`, elementwise `+ - *` with broadcasting,
`.T`, `torch.sigmoid`, `torch.pow`) are modelled as functions that return
`none` exactly when torch would raise a shape error.  Python list
indexing, including the negative-index wraparound `a[-1]`, is modelled
by `pyGet`.
-/

/-- A real matrix: a shape together with a total entry function.
Entries outside the shape are junk and never constrained by theorems. -/
structure Mat where
  rows : Nat
  cols : Nat
  entry : Nat → Nat → ℝ

/-- Default matrix used by `List.getD` style access. -/
def dMat : Mat := ⟨0, 0, fun _ _ => 0⟩

instance : Inhabited Mat := ⟨dMat⟩

/-- The logistic sigmoid, `torch.sigmoid`. -/
noncomputable def sigmoid (t : ℝ) : ℝ := 1 / (1 + Real.exp (-t))

/-- Matrix transpose, `.T` in the notebook. -/
def Mat.transpose (M : Mat) : Mat := ⟨M.cols, M.rows, fun i j => M.entry j i⟩

/-- Elementwise map; models unary elementwise torch ops such as
`torch.sigmoid`, `1 - t`, `torch.pow(t, 2)`, `0.5 * t`. -/
def Mat.map (f : ℝ → ℝ) (M : Mat) : Mat := ⟨M.rows, M.cols, fun i j => f (M.entry i j)⟩

/-- Total (mathematical) matrix product, used as the value produced by a
successful `torch.matmul`. -/
def matmulT (M N : Mat) : Mat :=
  ⟨M.rows, N.cols, fun i j => ∑ k ∈ Finset.range M.cols, M.entry i k * N.entry k j⟩

/-- `torch.matmul` on 2-d tensors: fails (shape error) unless the inner
dimensions agree. -/
def matmul (M N : Mat) : Option Mat :=
  if M.cols = N.rows then some (matmulT M N) else none

/-- Broadcast of one dimension pair, as torch does it: equal sizes, or one
of them is 1. -/
def bcDim (a b : Nat) : Option Nat :=
  if a = b then some a else if a = 1 then some b else if b = 1 then some a else none

/-- Index into a possibly-broadcast operand: a size-1 dimension stretched
against a larger one always reads index 0. -/
def bcIdx (a b : Nat) (i : Nat) : Nat :=
  if a = 1 ∧ 1 < b then 0 else i

/-- Elementwise binary torch op with broadcasting (`+`, `-`, `*` on
tensors); fails exactly when the shapes are not broadcast-compatible. -/
def ewise (f : ℝ → ℝ → ℝ) (M N : Mat) : Option Mat :=
  match bcDim M.rows N.rows, bcDim M.cols N.cols with
  | some r, some c =>
      some ⟨r, c, fun i j =>
        f (M.entry (bcIdx M.rows N.rows i) (bcIdx M.cols N.cols j))
          (N.entry (bcIdx N.rows M.rows i) (bcIdx N.cols M.cols j))⟩
  | _, _ => none

/-- `Z(x, W_l, b_l) = torch.matmul(W_l, x) + b_l` from the notebook. -/
def Z (x W_l b_l : Mat) : Option Mat := do
  let m ← matmul W_l x
  ewise (· + ·) m b_l

/-- `A(z_l) = torch.sigmoid(z_l)` from the notebook. -/
noncomputable def A (z_l : Mat) : Mat := z_l.map sigmoid

/-- `forward(x, W, b)` from the notebook: fold the layers over the input.
An out-of-range access of `b[l]` (bias list shorter than the weight list)
is a Python `IndexError`, modelled as `none` as well. -/
noncomputable def forward (x : Mat) (W b : List Mat) : Option Mat :=
  match W, b with
  | [], _ => some x
  | _ :: _, [] => none
  | Wl :: Wt, bl :: bt => do
      let z ← Z x Wl bl
      forward (A z) Wt bt

/-- `mse_loss(a_L, y) = 1./2 * torch.pow(a_L - y, 2)` from the notebook. -/
noncomputable def mse_loss (a_L y : Mat) : Option Mat := do
  let d ← ewise (· - ·) a_L y
  return Mat.map (fun t => 1 / 2 * t) (Mat.map (fun t => t ^ 2) d)

/-- The forward loop of `forward_backward`: builds the activation cache
`a = [a_0, ..., a_L]` in order. -/
noncomputable def cacheAux (x : Mat) (W b : List Mat) : Option (List Mat) :=
  match W, b with
  | [], _ => some []
  | _ :: _, [] => none
  | Wl :: Wt, bl :: bt => do
      let z ← Z x Wl bl
      let rest ← cacheAux (A z) Wt bt
      return A z :: rest

/-- Python list indexing `xs[i]` with negative-index wraparound:
`xs[-k]` is `xs[len xs - k]`, and any out-of-range access is an
`IndexError`, modelled as `none`. -/
def pyGet (xs : List Mat) (i : Int) : Option Mat :=
  if 0 ≤ i then xs.get? i.toNat
  else if (-i).toNat ≤ xs.length then xs.get? (xs.length - (-i).toNat)
  else none

/-- Last-layer error term from the notebook:
`deltas[L] = (a_L - y) * a_L * (1 - a_L)`. -/
def deltaLast (aL y : Mat) : Option Mat := do
  let s ← ewise (· - ·) aL y
  let p ← ewise (· * ·) s aL
  ewise (· * ·) p (aL.map (fun t => 1 - t))

/-- Body of the backward loop:
`deltas[l] = torch.matmul(W[l+1].T, deltas[l+1]) * a_l * (1 - a_l)`. -/
def deltaStep (Wl1 dl1 al : Mat) : Option Mat := do
  let m ← matmul Wl1.transpose dl1
  let p ← ewise (· * ·) m al
  ewise (· * ·) p (al.map (fun t => 1 - t))

/-- The backward loop `for l in range(L-1, -1, -1)` computing the error
terms: `deltasFrom W a l dl` is the list `[deltas 0, ..., deltas l]`
given that the error term at layer `l` is `dl`. -/
def deltasFrom (W a : List Mat) : Nat → Mat → Option (List Mat)
  | 0, dl => some [dl]
  | l + 1, dl => do
      let al ← pyGet a (l : Int)
      let Wl1 ← pyGet W ((l : Int) + 1)
      let d ← deltaStep Wl1 dl al
      let rest ← deltasFrom W a l d
      return rest ++ [dl]

/-- One weight gradient from the notebook:
`W_grads[l] = torch.matmul(deltas[l], a[l - 1].T)`, where `a[l - 1]` is a
Python access and wraps around to `a[-1]`, the last cached activation,
when `l = 0`. -/
def wGrad (a ds : List Mat) (l : Nat) : Option Mat := do
  let dl ← ds.get? l
  let am1 ← pyGet a ((l : Int) - 1)
  matmul dl am1.transpose

/-- All weight gradients `[W_grads 0, ..., W_grads (n-1)]`. -/
def wGradsAux (a ds : List Mat) : Nat → Option (List Mat)
  | 0 => some []
  | k + 1 => do
      let rest ← wGradsAux a ds k
      let g ← wGrad a ds k
      return rest ++ [g]

/-- `forward_backward(x, y, W, b)` from the notebook.  Returns the loss,
the weight gradients and the bias gradients (the bias gradients are the
error terms themselves: `b_grads[l] = deltas[l]`). -/
noncomputable def forward_backward (x y : Mat) (W b : List Mat) :
    Option (Mat × List Mat × List Mat) := do
  let a ← cacheAux x W b
  let aL ← pyGet a ((W.length : Int) - 1)
  let loss ← mse_loss aL y
  let dL ← deltaLast aL y
  let ds ← deltasFrom W a (W.length - 1) dL
  let Wg ← wGradsAux a ds W.length
  return (loss, Wg, ds)

/-- Shape compatibility of an input dimension with weight/bias lists, as
the spec describes it: `W l` has shape `(u_l, u_(l-1))`, `b l` has shape
`(u_l, 1)`, with `u_(-1)` the input dimension. -/
def chainOk : Nat → List Mat → List Mat → Bool
  | _, [], [] => true
  | d, Wl :: Wt, bl :: bt =>
      (Wl.cols == d) && (bl.rows == Wl.rows) && (bl.cols == 1) && chainOk Wl.rows Wt bt
  | _, _, _ => false

/-- One spec-side layer: `a_l = sigmoid(W_l · a_(l-1) + b_l)`, written
with the total mathematical operations. -/
noncomputable def specLayer (aPrev Wl bl : Mat) : Mat :=
  Mat.map sigmoid ⟨Wl.rows, aPrev.cols, fun i j => (matmulT Wl aPrev).entry i j + bl.entry i j⟩

/-- The activation sequence `a_0, ..., a_L` exactly as the spec's forward
recurrence describes it (a second, spec-side definition used to state
refinement of the code by the spec equations). -/
noncomputable def specForwardActs (x : Mat) : List Mat → List Mat → List Mat
  | Wl :: Wt, bl :: bt => specLayer x Wl bl :: specForwardActs (specLayer x Wl bl) Wt bt
  | _, _ => []

/-! ### Basic lemmas about the tensor operations -/

theorem bcIdx_self (n i : Nat) : bcIdx n n i = i := by
  unfold bcIdx
  rcases eq_or_ne n 1 with h | h
  · subst h; simp
  · simp [h]

theorem bcDim_self (n : Nat) : bcDim n n = some n := by
  simp [bcDim]

/-- Elementwise torch ops on operands of identical shape reduce to the
plain pointwise operation. -/
theorem ewise_same (f : ℝ → ℝ → ℝ) (M N : Mat) (hr : M.rows = N.rows)
    (hc : M.cols = N.cols) :
    ewise f M N = some ⟨M.rows, M.cols, fun i j => f (M.entry i j) (N.entry i j)⟩ := by
  unfold ewise
  rw [← hr, ← hc, bcDim_self, bcDim_self]
  simp [bcIdx_self]

theorem matmul_ok (M N : Mat) (h : M.cols = N.rows) :
    matmul M N = some (matmulT M N) := by
  simp [matmul, h]

theorem Mat.map_rows (f : ℝ → ℝ) (M : Mat) : (M.map f).rows = M.rows := rfl

theorem Mat.map_cols (f : ℝ → ℝ) (M : Mat) : (M.map f).cols = M.cols := rfl

/-! ### The forward sweep -/

/-- Whenever the forward loop of `forward_backward` finishes, the cache
has one activation per layer. -/
theorem cacheAux_length (W : List Mat) :
    ∀ b x as, cacheAux x W b = some as → as.length = W.length := by
  induction W with
  | nil =>
      intro b x as h
      simp [cacheAux] at h
      simp [← h]
  | cons Wl Wt ih =>
      intro b x as h
      cases b with
      | nil => simp [cacheAux] at h
      | cons bl bt =>
          simp only [cacheAux, Option.bind_eq_bind, Option.bind_eq_some] at h
          obtain ⟨z, hz, h⟩ := h
          obtain ⟨rest, hrest, h⟩ := h
          simp only [Option.pure_def, Option.some_inj] at h
          subst h
          simp [ih bt (A z) rest hrest]

/-- The forward sweep of `forward_backward` computes exactly `forward`:
mapping "last element of the cache" over the cache result gives the
result of `forward`. -/
theorem cacheAux_forward (W : List Mat) :
    ∀ b x, (cacheAux x W b).map (fun as => as.getLastD x) = forward x W b := by
  induction W with
  | nil => intro b x; simp [cacheAux, forward]
  | cons Wl Wt ih =>
      intro b x
      cases b with
      | nil => simp [cacheAux, forward]
      | cons bl bt =>
          simp only [cacheAux, forward, Option.bind_eq_bind]
          cases hz : Z x Wl bl with
          | none => simp
          | some z =>
              simp only [Option.some_bind]
              rw [← ih bt (A z)]
              cases hr : cacheAux (A z) Wt bt with
              | none => simp
              | some rest =>
                  cases rest with
                  | nil => rfl
                  | cons r rs => simp [List.getLastD]

/-! ### Shape-compatibility facts -/

theorem chainOk_cons (d : Nat) (Wl bl : Mat) (Wt bt : List Mat)
    (h : chainOk d (Wl :: Wt) (bl :: bt) = true) :
    Wl.cols = d ∧ bl.rows = Wl.rows ∧ bl.cols = 1 ∧ chainOk Wl.rows Wt bt = true := by
  simp only [chainOk, Bool.and_eq_true, beq_iff_eq] at h
  tauto

theorem chainOk_shape_nil (d : Nat) (b : List Mat) (h : chainOk d [] b = true) : b = [] := by
  cases b with
  | nil => rfl
  | cons bl bt => simp [chainOk] at h

/-- Under shape compatibility the activation cache of `forward_backward`
is exactly the spec-side activation sequence, and its shapes are
`(u_l, 1)` layer by layer. -/
theorem cacheAux_spec (W : List Mat) :
    ∀ b x, x.cols = 1 → chainOk x.rows W b = true →
      cacheAux x W b = some (specForwardActs x W b) ∧
      (specForwardActs x W b).map (fun m => (m.rows, m.cols)) = W.map (fun w => (w.rows, 1)) := by
  induction W with
  | nil =>
      intro b x hx hc
      rw [chainOk_shape_nil _ _ hc]
      exact ⟨rfl, rfl⟩
  | cons Wl Wt ih =>
      intro b x hx hc
      cases b with
      | nil => simp [chainOk] at hc
      | cons bl bt =>
          obtain ⟨h1, h2, h3, h4⟩ := chainOk_cons _ _ _ _ _ hc
          have hm : matmul Wl x = some (matmulT Wl x) := matmul_ok _ _ (by rw [h1])
          have he : ewise (· + ·) (matmulT Wl x) bl =
              some ⟨Wl.rows, x.cols, fun i j => (matmulT Wl x).entry i j + bl.entry i j⟩ :=
            ewise_same _ _ _ (show (matmulT Wl x).rows = bl.rows from h2.symm)
              (show (matmulT Wl x).cols = bl.cols from hx.trans h3.symm)
          have hZ : Z x Wl bl =
              some ⟨Wl.rows, x.cols, fun i j => (matmulT Wl x).entry i j + bl.entry i j⟩ := by
            simp only [Z, Option.bind_eq_bind]
            rw [hm]
            simp only [Option.some_bind]
            exact he
          have hAspec : A ⟨Wl.rows, x.cols, fun i j => (matmulT Wl x).entry i j + bl.entry i j⟩
              = specLayer x Wl bl := rfl
          have hcols : (specLayer x Wl bl).cols = 1 := hx
          have hchain : chainOk (specLayer x Wl bl).rows Wt bt = true := h4
          obtain ⟨hca, hmap⟩ := ih bt (specLayer x Wl bl) hcols hchain
          constructor
          · simp only [cacheAux, Option.bind_eq_bind]
            rw [hZ]
            simp only [Option.some_bind]
            rw [hAspec, hca]
            rfl
          · simp only [specForwardActs, List.map_cons]
            rw [hmap]
            congr 1
            show ((specLayer x Wl bl).rows, (specLayer x Wl bl).cols) = (Wl.rows, 1)
            rw [hcols]
            rfl

/-! ### Index-level helpers -/

theorem map_eq_getD (f g : Mat → Nat × Nat) :
    ∀ (q p : List Mat), p.map f = q.map g → ∀ l, l < q.length →
      f (p.getD l dMat) = g (q.getD l dMat) := by
  intro q
  induction q with
  | nil => intro p h l hl; simp at hl
  | cons ql qt ih =>
      intro p h l hl
      cases p with
      | nil => simp at h
      | cons pl pt =>
          simp only [List.map_cons, List.cons.injEq] at h
          cases l with
          | zero => simpa using h.1
          | succ l =>
              simp only [List.getD_cons_succ]
              exact ih pt h.2 l (by simpa using hl)

theorem map_eq_length (f g : Mat → Nat × Nat) (p q : List Mat)
    (h : p.map f = q.map g) : p.length = q.length := by
  have := congrArg List.length h
  simpa using this

theorem chainOk_getD_cols :
    ∀ (W b : List Mat) (d : Nat), chainOk d W b = true →
      ∀ l, l + 1 < W.length → (W.getD (l+1) dMat).cols = (W.getD l dMat).rows := by
  intro W
  induction W with
  | nil => intro b d h l hl; simp at hl
  | cons Wl Wt ih =>
      intro b d h l hl
      cases b with
      | nil => simp [chainOk] at h
      | cons bl bt =>
          obtain ⟨h1, h2, h3, h4⟩ := chainOk_cons _ _ _ _ _ h
          cases l with
          | zero =>
              simp only [List.getD_cons_succ, List.getD_cons_zero]
              cases Wt with
              | nil => simp at hl
              | cons W1 Wt2 =>
                  cases bt with
                  | nil => simp [chainOk] at h4
                  | cons b1 bt2 =>
                      obtain ⟨g1, _, _, _⟩ := chainOk_cons _ _ _ _ _ h4
                      simpa using g1
          | succ l =>
              simp only [List.getD_cons_succ]
              exact ih bt Wl.rows h4 l (by simpa using hl)

theorem get?_eq_getD : ∀ (xs : List Mat) (l : Nat), l < xs.length →
    xs.get? l = some (xs.getD l dMat) := by
  intro xs
  induction xs with
  | nil => intro l hl; simp at hl
  | cons a t ih =>
      intro l hl
      cases l with
      | zero => rfl
      | succ l => simpa [List.getD_cons_succ] using ih l (by simpa using hl)

theorem pyGet_nonneg (xs : List Mat) (l : Nat) (hl : l < xs.length) :
    pyGet xs (l : Int) = some (xs.getD l dMat) := by
  unfold pyGet
  rw [if_pos (by omega)]
  rw [show ((l : Int)).toNat = l by omega]
  exact get?_eq_getD xs l hl

theorem pyGet_neg_one (xs : List Mat) (h : xs ≠ []) :
    pyGet xs (-1) = some (xs.getD (xs.length - 1) dMat) := by
  have hlen : 0 < xs.length := List.length_pos.mpr h
  unfold pyGet
  rw [if_neg (by decide), if_pos (by simp; omega)]
  exact get?_eq_getD xs (xs.length - 1) (by omega)

/-! ### Backward-sweep building blocks -/

theorem deltaLast_ok (aL y : Mat) (h1 : aL.rows = y.rows) (h2 : aL.cols = y.cols) :
    deltaLast aL y = some ⟨aL.rows, aL.cols, fun i j =>
      (aL.entry i j - y.entry i j) * aL.entry i j * (1 - aL.entry i j)⟩ := by
  have hs : ewise (· - ·) aL y =
      some ⟨aL.rows, aL.cols, fun i j => aL.entry i j - y.entry i j⟩ :=
    ewise_same _ _ _ h1 h2
  have hp : ewise (· * ·) (⟨aL.rows, aL.cols, fun i j => aL.entry i j - y.entry i j⟩ : Mat) aL =
      some ⟨aL.rows, aL.cols, fun i j => (aL.entry i j - y.entry i j) * aL.entry i j⟩ :=
    ewise_same _ _ _ rfl rfl
  have hq : ewise (· * ·)
      (⟨aL.rows, aL.cols, fun i j => (aL.entry i j - y.entry i j) * aL.entry i j⟩ : Mat)
      (aL.map (fun t => 1 - t)) =
      some ⟨aL.rows, aL.cols, fun i j =>
        (aL.entry i j - y.entry i j) * aL.entry i j * (1 - aL.entry i j)⟩ :=
    ewise_same _ _ _ rfl rfl
  simp only [deltaLast, Option.bind_eq_bind]
  rw [hs]
  simp only [Option.some_bind]
  rw [hp]
  simp only [Option.some_bind]
  exact hq

theorem deltaStep_ok (Wl1 dl al : Mat) (h1 : Wl1.rows = dl.rows)
    (h2 : Wl1.cols = al.rows) (h3 : dl.cols = 1) (h4 : al.cols = 1) :
    ∃ d, deltaStep Wl1 dl al = some d ∧ d.rows = al.rows ∧ d.cols = 1 := by
  have hm : matmul Wl1.transpose dl = some (matmulT Wl1.transpose dl) :=
    matmul_ok _ _ (show Wl1.transpose.cols = dl.rows from h1)
  have he1 : ewise (· * ·) (matmulT Wl1.transpose dl) al =
      some ⟨Wl1.cols, dl.cols, fun i j =>
        (matmulT Wl1.transpose dl).entry i j * al.entry i j⟩ :=
    ewise_same _ _ _ (show (matmulT Wl1.transpose dl).rows = al.rows from h2)
      (show (matmulT Wl1.transpose dl).cols = al.cols from h3.trans h4.symm)
  have he2 : ewise (· * ·)
      (⟨Wl1.cols, dl.cols, fun i j => (matmulT Wl1.transpose dl).entry i j * al.entry i j⟩ : Mat)
      (al.map (fun t => 1 - t)) =
      some ⟨Wl1.cols, dl.cols, fun i j =>
        (matmulT Wl1.transpose dl).entry i j * al.entry i j * (1 - al.entry i j)⟩ :=
    ewise_same _ _ _ (show Wl1.cols = al.rows from h2)
      (show dl.cols = al.cols from h3.trans h4.symm)
  refine ⟨⟨Wl1.cols, dl.cols, fun i j =>
      (matmulT Wl1.transpose dl).entry i j * al.entry i j * (1 - al.entry i j)⟩, ?_, h2, h3⟩
  simp only [deltaStep, Option.bind_eq_bind]
  rw [hm]
  simp only [Option.some_bind]
  rw [he1]
  simp only [Option.some_bind]
  exact he2

/-- Success, length and shapes of the backward error-term sweep. -/
theorem deltasFrom_ok (W a : List Mat)
    (hchain : ∀ l, l + 1 < W.length → (W.getD (l+1) dMat).cols = (W.getD l dMat).rows)
    (hlen : a.length = W.length)
    (hshape : ∀ l, l < W.length →
      (a.getD l dMat).rows = (W.getD l dMat).rows ∧ (a.getD l dMat).cols = 1) :
    ∀ l, l < W.length → ∀ dl, dl.rows = (W.getD l dMat).rows → dl.cols = 1 →
      ∃ ds, deltasFrom W a l dl = some ds ∧ ds.length = l + 1 ∧
        (∀ i, i ≤ l → (ds.getD i dMat).rows = (W.getD i dMat).rows ∧
          (ds.getD i dMat).cols = 1) ∧
        ds.getD l dMat = dl := by
  intro l
  induction l with
  | zero =>
      intro _ dl hr hc
      refine ⟨[dl], rfl, rfl, ?_, rfl⟩
      intro i hi
      have : i = 0 := by omega
      subst this
      exact ⟨hr, hc⟩
  | succ l ih =>
      intro hl dl hr hc
      have hal : pyGet a (l : Int) = some (a.getD l dMat) := pyGet_nonneg a l (by omega)
      have hWl1 : pyGet W ((l : Int) + 1) = some (W.getD (l+1) dMat) := by
        rw [show ((l : Int) + 1) = ((l + 1 : Nat) : Int) by push_cast; ring]
        exact pyGet_nonneg W (l+1) (by omega)
      obtain ⟨hprev_r, hprev_c⟩ := hshape l (by omega)
      obtain ⟨d, hd, hdr, hdc⟩ := deltaStep_ok (W.getD (l+1) dMat) dl (a.getD l dMat)
        (by rw [hr]) (by rw [hprev_r]; exact hchain l hl) hc hprev_c
      have hdr2 : d.rows = (W.getD l dMat).rows := by rw [hdr, hprev_r]
      obtain ⟨rest, hrest, hrlen, hrshape, hrtop⟩ := ih (by omega) d hdr2 hdc
      refine ⟨rest ++ [dl], ?_, by simp [hrlen], ?_, ?_⟩
      · simp only [deltasFrom, Option.bind_eq_bind]
        rw [hal]
        simp only [Option.some_bind]
        rw [hWl1]
        simp only [Option.some_bind]
        rw [hd]
        simp only [Option.some_bind]
        rw [hrest]
        rfl
      · intro i hi
        rcases Nat.lt_or_ge i (l + 1) with h | h
        · rw [List.getD_append _ _ _ _ (by omega)]
          exact hrshape i (by omega)
        · have : i = l + 1 := by omega
          subst this
          have htop : (rest ++ [dl]).getD (l+1) dMat = dl := by
            rw [List.getD_append_right _ _ _ _ (by omega), hrlen]
            simp
          rw [htop]
          exact ⟨hr, hc⟩
      · rw [List.getD_append_right _ _ _ _ (by omega), hrlen]
        simp

/-- The weight gradient at layer 0: the Python access `a[0 - 1] = a[-1]`
reads the LAST cached activation. -/
theorem wGrad_zero (a ds : List Mat) (h0 : 0 < ds.length) (ha : a ≠ [])
    (hdc : (ds.getD 0 dMat).cols = 1) (hac : (a.getD (a.length - 1) dMat).cols = 1) :
    wGrad a ds 0 =
      some (matmulT (ds.getD 0 dMat) (a.getD (a.length - 1) dMat).transpose) := by
  unfold wGrad
  rw [get?_eq_getD ds 0 h0]
  simp only [Option.bind_eq_bind, Option.some_bind]
  rw [show ((0 : Nat) : Int) - 1 = (-1 : Int) by decide]
  rw [pyGet_neg_one a ha]
  simp only [Option.some_bind]
  exact matmul_ok _ _ (hdc.trans hac.symm)

/-- The weight gradient at a layer `l + 1` reads the cached activation of
the previous layer. -/
theorem wGrad_succ (a ds : List Mat) (l : Nat) (hl : l + 1 < ds.length) (hal : l < a.length)
    (hdc : (ds.getD (l+1) dMat).cols = 1) (hac : (a.getD l dMat).cols = 1) :
    wGrad a ds (l+1) = some (matmulT (ds.getD (l+1) dMat) (a.getD l dMat).transpose) := by
  unfold wGrad
  rw [get?_eq_getD ds (l+1) hl]
  simp only [Option.bind_eq_bind, Option.some_bind]
  rw [show ((l + 1 : Nat) : Int) - 1 = ((l : Nat) : Int) by push_cast; ring]
  rw [pyGet_nonneg a l hal]
  simp only [Option.some_bind]
  exact matmul_ok _ _ (hdc.trans hac.symm)

/-- If every per-layer weight gradient succeeds, the whole gradient list
is produced, in order. -/
theorem wGradsAux_ok (a ds : List Mat) :
    ∀ k, (∀ l, l < k → ∃ g, wGrad a ds l = some g) →
      ∃ Wg, wGradsAux a ds k = some Wg ∧ Wg.length = k ∧
        ∀ l, l < k → wGrad a ds l = some (Wg.getD l dMat) := by
  intro k
  induction k with
  | zero => exact fun _ => ⟨[], rfl, rfl, fun l hl => absurd hl (by omega)⟩
  | succ k ih =>
      intro hall
      obtain ⟨Wg, hWg, hlen, hget⟩ := ih (fun l hl => hall l (by omega))
      obtain ⟨g, hg⟩ := hall k (by omega)
      refine ⟨Wg ++ [g], ?_, by simp [hlen], ?_⟩
      · simp only [wGradsAux, Option.bind_eq_bind]
        rw [hWg]
        simp only [Option.some_bind]
        rw [hg]
        simp only [Option.some_bind]
        rfl
      · intro l hl
        rcases Nat.lt_or_ge l k with h | h
        · rw [List.getD_append _ _ _ _ (by omega)]
          exact hget l h
        · have : l = k := by omega
          subst this
          have htop : (Wg ++ [g]).getD l dMat = g := by
            rw [List.getD_append_right _ _ _ _ (by omega), hlen]
            simp
          rw [htop]
          exact hg

/-- Master lemma: on spec-shape-compatible inputs `forward_backward`
succeeds; the cache is the spec activation sequence, the error terms and
gradients have the lengths and shapes the code actually produces, and
the last-layer loss/error formulas are exposed. -/
theorem fb_ok (x y : Mat) (W b : List Mat) (hx : x.cols = 1)
    (hc : chainOk x.rows W b = true) (hW : W ≠ [])
    (hyr : y.rows = (W.getD (W.length - 1) dMat).rows) (hyc : y.cols = 1) :
    ∃ loss Wg ds,
      forward_backward x y W b = some (loss, Wg, ds) ∧
      cacheAux x W b = some (specForwardActs x W b) ∧
      (specForwardActs x W b).length = W.length ∧
      ds.length = W.length ∧ Wg.length = W.length ∧
      (∀ l, l < W.length →
        ((specForwardActs x W b).getD l dMat).rows = (W.getD l dMat).rows ∧
        ((specForwardActs x W b).getD l dMat).cols = 1) ∧
      (∀ l, l < W.length →
        (ds.getD l dMat).rows = (W.getD l dMat).rows ∧ (ds.getD l dMat).cols = 1) ∧
      mse_loss ((specForwardActs x W b).getD (W.length - 1) dMat) y = some loss ∧
      deltaLast ((specForwardActs x W b).getD (W.length - 1) dMat) y
        = some (ds.getD (W.length - 1) dMat) ∧
      (∀ l, l < W.length → wGrad (specForwardActs x W b) ds l = some (Wg.getD l dMat)) := by
  obtain ⟨hca, hmap⟩ := cacheAux_spec W b x hx hc
  set as := specForwardActs x W b with has
  have hn : 0 < W.length := List.length_pos.mpr hW
  have hlen : as.length = W.length := map_eq_length _ _ _ _ hmap
  have hshape : ∀ l, l < W.length →
      (as.getD l dMat).rows = (W.getD l dMat).rows ∧ (as.getD l dMat).cols = 1 := by
    intro l hl
    have h := map_eq_getD (fun m => (m.rows, m.cols)) (fun w => (w.rows, 1)) W as hmap l hl
    simp only [Prod.mk.injEq] at h
    exact h
  have haL : pyGet as ((W.length : Int) - 1) = some (as.getD (W.length - 1) dMat) := by
    rw [show ((W.length : Int) - 1) = ((W.length - 1 : Nat) : Int) by omega]
    exact pyGet_nonneg as _ (by omega)
  obtain ⟨haLr, haLc⟩ := hshape (W.length - 1) (by omega)
  have hr : (as.getD (W.length - 1) dMat).rows = y.rows := haLr.trans hyr.symm
  have hcy : (as.getD (W.length - 1) dMat).cols = y.cols := haLc.trans hyc.symm
  have hsub : ewise (· - ·) (as.getD (W.length - 1) dMat) y =
      some ⟨(as.getD (W.length - 1) dMat).rows, (as.getD (W.length - 1) dMat).cols,
        fun i j => (as.getD (W.length - 1) dMat).entry i j - y.entry i j⟩ :=
    ewise_same _ _ _ hr hcy
  have hmse : mse_loss (as.getD (W.length - 1) dMat) y =
      some (Mat.map (fun t => 1 / 2 * t) (Mat.map (fun t => t ^ 2)
        ⟨(as.getD (W.length - 1) dMat).rows, (as.getD (W.length - 1) dMat).cols,
          fun i j => (as.getD (W.length - 1) dMat).entry i j - y.entry i j⟩)) := by
    unfold mse_loss
    simp only [Option.bind_eq_bind]
    rw [hsub]
    rfl
  have hdlast := deltaLast_ok (as.getD (W.length - 1) dMat) y hr hcy
  obtain ⟨ds, hds, hdslen, hdsshape, hdstop⟩ :=
    deltasFrom_ok W as (chainOk_getD_cols W b x.rows hc) hlen hshape
      (W.length - 1) (by omega)
      (⟨(as.getD (W.length - 1) dMat).rows, (as.getD (W.length - 1) dMat).cols,
        fun i j => ((as.getD (W.length - 1) dMat).entry i j - y.entry i j) *
          (as.getD (W.length - 1) dMat).entry i j *
          (1 - (as.getD (W.length - 1) dMat).entry i j)⟩)
      haLr haLc
  have hdslen2 : ds.length = W.length := by omega
  have hdsshape2 : ∀ l, l < W.length →
      (ds.getD l dMat).rows = (W.getD l dMat).rows ∧ (ds.getD l dMat).cols = 1 :=
    fun l hl => hdsshape l (by omega)
  have hall : ∀ l, l < W.length → ∃ g, wGrad as ds l = some g := by
    intro l hl
    cases l with
    | zero =>
        refine ⟨_, wGrad_zero as ds (by omega) (by
          intro hnil
          rw [hnil] at hlen
          simp at hlen
          omega) (hdsshape2 0 (by omega)).2 ?_⟩
        rw [hlen]
        exact (hshape (W.length - 1) (by omega)).2
    | succ k =>
        exact ⟨_, wGrad_succ as ds k (by omega) (by omega)
          (hdsshape2 (k+1) hl).2 (hshape k (by omega)).2⟩
  obtain ⟨Wg, hWg, hWglen, hWgget⟩ := wGradsAux_ok as ds W.length hall
  refine ⟨_, Wg, ds, ?_, hca, hlen, hdslen2, hWglen, hshape, hdsshape2, hmse, ?_, hWgget⟩
  · unfold forward_backward
    simp only [Option.bind_eq_bind]
    rw [hca]
    simp only [Option.some_bind]
    rw [haL]
    simp only [Option.some_bind]
    rw [hmse]
    simp only [Option.some_bind]
    rw [hdlast]
    simp only [Option.some_bind]
    rw [hds]
    simp only [Option.some_bind]
    rw [hWg]
    simp only [Option.some_bind]
    rfl
  · rw [hdlast, hdstop]

theorem getLastD_eq_getD : ∀ (l : List Mat) (d : Mat), l ≠ [] →
    l.getLastD d = l.getD (l.length - 1) dMat := by
  intro l
  induction l with
  | nil => intro d h; exact absurd rfl h
  | cons a t ih =>
      intro d h
      cases t with
      | nil => rfl
      | cons b t2 =>
          calc (a :: b :: t2).getLastD d = (b :: t2).getLastD a := rfl
          _ = (b :: t2).getD ((b :: t2).length - 1) dMat := ih a (by simp)
          _ = (a :: b :: t2).getD ((a :: b :: t2).length - 1) dMat := by
              simp [List.getD_cons_succ]

theorem getD_mem : ∀ (l : List Mat) (n : Nat), n < l.length → l.getD n dMat ∈ l := by
  intro l
  induction l with
  | nil => intro n h; simp at h
  | cons a t ih =>
      intro n h
      cases n with
      | zero => simp
      | succ n =>
          simp only [List.getD_cons_succ]
          exact List.mem_cons_of_mem a (ih n (by simpa using h))

theorem sigmoid_pos (t : ℝ) : 0 < sigmoid t := by
  unfold sigmoid
  positivity

theorem sigmoid_lt_one (t : ℝ) : sigmoid t < 1 := by
  unfold sigmoid
  rw [div_lt_one (by positivity)]
  linarith [Real.exp_pos (-t)]

/-- Every spec-side activation is an elementwise sigmoid image. -/
theorem specForwardActs_sigmoid :
    ∀ (W b : List Mat) (x m : Mat), m ∈ specForwardActs x W b →
      ∃ p, m = Mat.map sigmoid p := by
  intro W
  induction W with
  | nil => intro b x m hm; simp [specForwardActs] at hm
  | cons Wl Wt ih =>
      intro b x m hm
      cases b with
      | nil => simp [specForwardActs] at hm
      | cons bl bt =>
          simp only [specForwardActs, List.mem_cons] at hm
          rcases hm with h | h
          · exact ⟨_, h⟩
          · exact ih bt (specLayer x Wl bl) m h

/-- On compatible shapes `forward` succeeds with the spec activation
sequence's last element. -/
theorem forward_ok (x : Mat) (W b : List Mat) (hx : x.cols = 1)
    (hc : chainOk x.rows W b = true) :
    forward x W b = some ((specForwardActs x W b).getLastD x) := by
  rw [← cacheAux_forward W b x, (cacheAux_spec W b x hx hc).1]
  rfl

/-- The layer-0 weight gradient that `forward_backward` actually
computes: the outer product of the layer-0 error term with the LAST
cached activation (Python `a[-1]`), not with the input vector. -/
theorem fb_wgrad0 (x y : Mat) (W b : List Mat) (hx : x.cols = 1)
    (hc : chainOk x.rows W b = true) (hW : W ≠ [])
    (hyr : y.rows = (W.getD (W.length - 1) dMat).rows) (hyc : y.cols = 1) :
    ∃ loss Wg ds,
      forward_backward x y W b = some (loss, Wg, ds) ∧
      cacheAux x W b = some (specForwardActs x W b) ∧
      (specForwardActs x W b).length = W.length ∧
      ds.length = W.length ∧ Wg.length = W.length ∧
      Wg.getD 0 dMat = matmulT (ds.getD 0 dMat)
        ((specForwardActs x W b).getD (W.length - 1) dMat).transpose ∧
      (ds.getD 0 dMat).rows = (W.getD 0 dMat).rows ∧
      (ds.getD 0 dMat).cols = 1 ∧
      ((specForwardActs x W b).getD (W.length - 1) dMat).rows =
        (W.getD (W.length - 1) dMat).rows := by
  obtain ⟨loss, Wg, ds, hfb, hca, hlen, hdslen, hWglen, hshape, hdsshape, hmse, hdl, hWgget⟩ :=
    fb_ok x y W b hx hc hW hyr hyc
  have hn : 0 < W.length := List.length_pos.mpr hW
  have hasne : specForwardActs x W b ≠ [] := by
    intro hnil
    rw [hnil] at hlen
    simp at hlen
    omega
  have hz := wGrad_zero (specForwardActs x W b) ds (by omega) hasne
    (hdsshape 0 (by omega)).2 (by rw [hlen]; exact (hshape (W.length - 1) (by omega)).2)
  have h0 := hWgget 0 (by omega)
  have heq : Wg.getD 0 dMat = matmulT (ds.getD 0 dMat)
      ((specForwardActs x W b).getD ((specForwardActs x W b).length - 1) dMat).transpose := by
    have := hz.symm.trans h0
    exact (Option.some_inj.mp this).symm
  rw [hlen] at heq
  exact ⟨loss, Wg, ds, hfb, hca, hlen, hdslen, hWglen, heq, (hdsshape 0 (by omega)).1,
    (hdsshape 0 (by omega)).2, (hshape (W.length - 1) (by omega)).1⟩

/-! ### Concrete matrices used to instantiate the theorems -/

/-- A 1 by 1 zero matrix. -/
def mat11 : Mat := ⟨1, 1, fun _ _ => 0⟩

/-- A 2 by 1 zero matrix (an input vector of dimension 2). -/
def mat21 : Mat := ⟨2, 1, fun _ _ => 0⟩

/-- A 1 by 2 zero matrix (a weight matrix for a 2-input, 1-unit layer). -/
def mat12 : Mat := ⟨1, 2, fun _ _ => 0⟩

/-! ### Claims -/

/-- C4: the forward sweep of `forward_backward` is identical to
`forward`: the last cached activation (the one the loss is computed
from) is the value of `forward`, and the cache retains one activation
per layer (`a_0 .. a_L`). -/
theorem C4_forward_sweep_refines_forward :
    ∀ (x : Mat) (W b : List Mat),
      (cacheAux x W b).map (fun as => as.getLastD x) = forward x W b ∧
      (cacheAux x W b).map List.length = (forward x W b).map (fun _ => W.length) := by
  intro x W b
  refine ⟨cacheAux_forward W b x, ?_⟩
  cases h : cacheAux x W b with
  | none =>
      rw [← cacheAux_forward W b x, h]
      rfl
  | some as =>
      rw [← cacheAux_forward W b x, h]
      simp [cacheAux_length W b x as h]

/-- C5: `forward` computes, layer by layer from 0 up to L, the
pre-activation `W_l · a_(l-1) + b_l` followed by the elementwise sigmoid,
starting from the input vector, and returns the final activation: it
refines the spec-side recurrence `specForwardActs`. -/
theorem C5_forward_spec_recurrence (x : Mat) (W b : List Mat) (hx : x.cols = 1)
    (hc : chainOk x.rows W b = true) :
    forward x W b = some ((specForwardActs x W b).getLastD x) :=
  forward_ok x W b hx hc

/-- Witness for C5 at a concrete one-layer network. -/
theorem C5_forward_spec_recurrence_witness :
    chainOk mat21.rows [mat12] [mat11] = true ∧
    forward mat21 [mat12] [mat11] =
      some ((specForwardActs mat21 [mat12] [mat11]).getLastD mat21) :=
  ⟨rfl, C5_forward_spec_recurrence mat21 [mat12] [mat11] rfl rfl⟩

/-- C7: the loss is one-half the squared difference per output element;
it is non-negative everywhere, and exactly 0 when the prediction equals
the ground truth. -/
theorem C7_loss_half_squared_error (p y : Mat) (hr : p.rows = y.rows)
    (hc : p.cols = y.cols) :
    ∃ lm, mse_loss p y = some lm ∧
      (∀ i j, lm.entry i j = 1 / 2 * (p.entry i j - y.entry i j) ^ 2) ∧
      (∀ i j, 0 ≤ lm.entry i j) ∧
      (p = y → ∀ i j, lm.entry i j = 0) := by
  have hs := ewise_same (· - ·) p y hr hc
  refine ⟨Mat.map (fun t => 1 / 2 * t) (Mat.map (fun t => t ^ 2)
      ⟨p.rows, p.cols, fun i j => p.entry i j - y.entry i j⟩), ?_, ?_, ?_, ?_⟩
  · unfold mse_loss
    simp only [Option.bind_eq_bind]
    rw [hs]
    rfl
  · intro i j
    rfl
  · intro i j
    show (0 : ℝ) ≤ 1 / 2 * (p.entry i j - y.entry i j) ^ 2
    positivity
  · intro hpy i j
    subst hpy
    show 1 / 2 * (p.entry i j - p.entry i j) ^ 2 = 0
    simp

/-- Witness for C7 at a concrete pair of equal 1 by 1 matrices. -/
theorem C7_loss_half_squared_error_witness :
    mat11.rows = mat11.rows ∧
    ∃ lm, mse_loss mat11 mat11 = some lm ∧
      (∀ i j, lm.entry i j = 1 / 2 * (mat11.entry i j - mat11.entry i j) ^ 2) ∧
      (∀ i j, 0 ≤ lm.entry i j) ∧
      (mat11 = mat11 → ∀ i j, lm.entry i j = 0) :=
  ⟨rfl, C7_loss_half_squared_error mat11 mat11 rfl rfl⟩

/-- C9: `forward_backward` is deterministic — two calls on identical
inputs give identical results (the model is a pure function of its four
arguments; no state survives across invocations). -/
theorem C9_deterministic (x y x2 y2 : Mat) (W b W2 b2 : List Mat)
    (hx : x = x2) (hy : y = y2) (hW : W = W2) (hb : b = b2) :
    forward_backward x y W b = forward_backward x2 y2 W2 b2 := by
  rw [hx, hy, hW, hb]

/-- Witness for C9 at a concrete one-layer network. -/
theorem C9_deterministic_witness :
    forward_backward mat21 mat11 [mat12] [mat11] =
      forward_backward mat21 mat11 [mat12] [mat11] :=
  C9_deterministic mat21 mat11 mat21 mat11 [mat12] [mat11] [mat12] [mat11]
    rfl rfl rfl rfl

/-- C6: on any shape-compatible input, `forward` returns a vector of
shape `(units_L, 1)` whose every entry lies strictly between 0 and 1. -/
theorem C6_forward_output_shape_range (x : Mat) (W b : List Mat) (hx : x.cols = 1)
    (hc : chainOk x.rows W b = true) (hW : W ≠ []) :
    ∃ aL, forward x W b = some aL ∧
      aL.rows = (W.getD (W.length - 1) dMat).rows ∧ aL.cols = 1 ∧
      ∀ i j, 0 < aL.entry i j ∧ aL.entry i j < 1 := by
  have hf := forward_ok x W b hx hc
  obtain ⟨hca, hmap⟩ := cacheAux_spec W b x hx hc
  have hlen : (specForwardActs x W b).length = W.length := map_eq_length _ _ _ _ hmap
  have hn : 0 < W.length := List.length_pos.mpr hW
  have hne : specForwardActs x W b ≠ [] := by
    intro h
    rw [h] at hlen
    simp at hlen
    omega
  have hlast : (specForwardActs x W b).getLastD x =
      (specForwardActs x W b).getD ((specForwardActs x W b).length - 1) dMat :=
    getLastD_eq_getD _ x hne
  have hshape : ∀ l, l < W.length →
      ((specForwardActs x W b).getD l dMat).rows = (W.getD l dMat).rows ∧
      ((specForwardActs x W b).getD l dMat).cols = 1 := by
    intro l hl
    have h := map_eq_getD (fun m => (m.rows, m.cols)) (fun w => (w.rows, 1))
      W (specForwardActs x W b) hmap l hl
    simp only [Prod.mk.injEq] at h
    exact h
  refine ⟨_, hf, ?_, ?_, ?_⟩
  · rw [hlast, hlen]
    exact (hshape (W.length - 1) (by omega)).1
  · rw [hlast, hlen]
    exact (hshape (W.length - 1) (by omega)).2
  · obtain ⟨p, hp⟩ := specForwardActs_sigmoid W b x
      ((specForwardActs x W b).getLastD x)
      (by rw [hlast]; exact getD_mem _ _ (by omega))
    intro i j
    rw [hp]
    exact ⟨sigmoid_pos _, sigmoid_lt_one _⟩

/-- Witness for C6 at a concrete one-layer network. -/
theorem C6_forward_output_shape_range_witness :
    chainOk mat21.rows [mat12] [mat11] = true ∧
    ∃ aL, forward mat21 [mat12] [mat11] = some aL ∧
      aL.rows = (([mat12] : List Mat).getD 0 dMat).rows ∧ aL.cols = 1 ∧
      ∀ i j, 0 < aL.entry i j ∧ aL.entry i j < 1 :=
  ⟨rfl, C6_forward_output_shape_range mat21 [mat12] [mat11] rfl rfl
    (by simp)⟩

/-- C8: on shape-compatible inputs `forward` and `forward_backward` do
not fail; when a weight matrix's inner dimension does not match the
incoming activation, `forward` fails (returns `none`) instead of
producing a wrong-shaped output. -/
theorem C8_shape_error_handling :
    (∀ (x y : Mat) (W b : List Mat), x.cols = 1 → chainOk x.rows W b = true →
      W ≠ [] → y.rows = (W.getD (W.length - 1) dMat).rows → y.cols = 1 →
      (forward x W b).isSome ∧ (forward_backward x y W b).isSome) ∧
    (∀ (x Wl bl : Mat) (Wt bt : List Mat), Wl.cols ≠ x.rows →
      forward x (Wl :: Wt) (bl :: bt) = none) := by
  constructor
  · intro x y W b hx hc hW hyr hyc
    constructor
    · rw [forward_ok x W b hx hc]
      rfl
    · obtain ⟨loss, Wg, ds, hfb, _⟩ := fb_ok x y W b hx hc hW hyr hyc
      rw [hfb]
      rfl
  · intro x Wl bl Wt bt hne
    have hZ : Z x Wl bl = none := by
      unfold Z matmul
      simp only [Option.bind_eq_bind]
      rw [if_neg hne]
      rfl
    simp only [forward, Option.bind_eq_bind]
    rw [hZ]
    rfl

/-- Witness for C8: a compatible one-layer network succeeds, and a layer
whose weight has inner dimension 1 fails on a 2-dimensional input. -/
theorem C8_shape_error_handling_witness :
    ((forward mat21 [mat12] [mat11]).isSome ∧
      (forward_backward mat21 mat11 [mat12] [mat11]).isSome) ∧
    forward mat21 [mat11] [mat11] = none :=
  ⟨C8_shape_error_handling.1 mat21 mat11 [mat12] [mat11] rfl rfl (by simp) rfl rfl,
    C8_shape_error_handling.2 mat21 mat11 mat11 [] [] (by decide)⟩

/-- C3: at the last layer, the bias gradient is the error term
`(a_L - y) * a_L * (1 - a_L)` (elementwise), and the weight gradient is
its outer product with the cached activation of the previous layer. -/
theorem C3_last_layer_formulas (x y : Mat) (W b : List Mat) (hx : x.cols = 1)
    (hc : chainOk x.rows W b = true) (h2 : 2 ≤ W.length)
    (hyr : y.rows = (W.getD (W.length - 1) dMat).rows) (hyc : y.cols = 1) :
    ∃ loss Wg bg as,
      forward_backward x y W b = some (loss, Wg, bg) ∧
      cacheAux x W b = some as ∧
      (∀ i j, (bg.getD (W.length - 1) dMat).entry i j =
        ((as.getD (W.length - 1) dMat).entry i j - y.entry i j) *
          (as.getD (W.length - 1) dMat).entry i j *
          (1 - (as.getD (W.length - 1) dMat).entry i j)) ∧
      (∀ i j, (Wg.getD (W.length - 1) dMat).entry i j =
        (bg.getD (W.length - 1) dMat).entry i 0 *
          (as.getD (W.length - 2) dMat).entry j 0) := by
  have hW : W ≠ [] := by
    intro h
    rw [h] at h2
    simp at h2
  obtain ⟨loss, Wg, ds, hfb, hca, hlen, hdslen, hWglen, hshape, hdsshape, hmse, hdl, hWgget⟩ :=
    fb_ok x y W b hx hc hW hyr hyc
  have hr : ((specForwardActs x W b).getD (W.length - 1) dMat).rows = y.rows :=
    (hshape (W.length - 1) (by omega)).1.trans hyr.symm
  have hcy : ((specForwardActs x W b).getD (W.length - 1) dMat).cols = y.cols :=
    (hshape (W.length - 1) (by omega)).2.trans hyc.symm
  have hdlast := deltaLast_ok ((specForwardActs x W b).getD (W.length - 1) dMat) y hr hcy
  have hdsL : ds.getD (W.length - 1) dMat =
      ⟨((specForwardActs x W b).getD (W.length - 1) dMat).rows,
       ((specForwardActs x W b).getD (W.length - 1) dMat).cols,
       fun i j =>
        (((specForwardActs x W b).getD (W.length - 1) dMat).entry i j - y.entry i j) *
          ((specForwardActs x W b).getD (W.length - 1) dMat).entry i j *
          (1 - ((specForwardActs x W b).getD (W.length - 1) dMat).entry i j)⟩ :=
    Option.some_inj.mp (hdl.symm.trans hdlast)
  have hL : W.length - 1 = (W.length - 2) + 1 := by omega
  have hwg := wGrad_succ (specForwardActs x W b) ds (W.length - 2)
    (by omega) (by omega)
    (hdsshape (W.length - 2 + 1) (by omega)).2
    (hshape (W.length - 2) (by omega)).2
  rw [← hL] at hwg
  have hWgL := hWgget (W.length - 1) (by omega)
  have hWgLeq : Wg.getD (W.length - 1) dMat =
      matmulT (ds.getD (W.length - 1) dMat)
        ((specForwardActs x W b).getD (W.length - 2) dMat).transpose :=
    Option.some_inj.mp (hWgL.symm.trans hwg)
  refine ⟨loss, Wg, ds, specForwardActs x W b, hfb, hca, ?_, ?_⟩
  · intro i j
    rw [hdsL]
  · intro i j
    rw [hWgLeq]
    show (∑ k ∈ Finset.range (ds.getD (W.length - 1) dMat).cols,
      (ds.getD (W.length - 1) dMat).entry i k *
        ((specForwardActs x W b).getD (W.length - 2) dMat).transpose.entry k j) = _
    rw [(hdsshape (W.length - 1) (by omega)).2, Finset.sum_range_one]
    rfl

/-- Witness for C3 at a concrete two-layer network of 1-unit layers. -/
theorem C3_last_layer_formulas_witness :
    2 ≤ ([mat11, mat11] : List Mat).length ∧
    ∃ loss Wg bg as,
      forward_backward mat11 mat11 [mat11, mat11] [mat11, mat11] = some (loss, Wg, bg) ∧
      cacheAux mat11 [mat11, mat11] [mat11, mat11] = some as ∧
      (∀ i j, (bg.getD 1 dMat).entry i j =
        ((as.getD 1 dMat).entry i j - mat11.entry i j) *
          (as.getD 1 dMat).entry i j * (1 - (as.getD 1 dMat).entry i j)) ∧
      (∀ i j, (Wg.getD 1 dMat).entry i j =
        (bg.getD 1 dMat).entry i 0 * (as.getD 0 dMat).entry j 0) :=
  ⟨by decide,
    C3_last_layer_formulas mat11 mat11 [mat11, mat11] [mat11, mat11]
      rfl rfl (by decide) rfl rfl⟩

/-- C10: for a single-layer network the backward loop body never runs,
and the notebook's `a[L - 1] = a[-1]` read makes the weight gradient the
outer product of the error term with the network's OWN output
activation `a_0`, of square shape `(units_0, units_0)`. -/
theorem C10_single_layer_self_outer_product (x y W0 b0 : Mat) (hx : x.cols = 1)
    (hc : chainOk x.rows [W0] [b0] = true) (hyr : y.rows = W0.rows) (hyc : y.cols = 1) :
    ∃ loss Wg bg as,
      forward_backward x y [W0] [b0] = some (loss, Wg, bg) ∧
      cacheAux x [W0] [b0] = some as ∧
      as.length = 1 ∧ Wg.length = 1 ∧ bg.length = 1 ∧
      (Wg.getD 0 dMat).rows = W0.rows ∧ (Wg.getD 0 dMat).cols = W0.rows ∧
      (∀ i j, (Wg.getD 0 dMat).entry i j =
        (bg.getD 0 dMat).entry i 0 * (as.getD 0 dMat).entry j 0) := by
  obtain ⟨loss, Wg, ds, hfb, hca, hlen, hdslen, hWglen, heq, hdr, hdc, har⟩ :=
    fb_wgrad0 x y [W0] [b0] hx hc (by simp) hyr hyc
  refine ⟨loss, Wg, ds, specForwardActs x [W0] [b0], hfb, hca, hlen, hWglen, hdslen,
    ?_, ?_, ?_⟩
  · rw [heq]
    exact hdr
  · rw [heq]
    exact har
  · intro i j
    rw [heq]
    show (∑ k ∈ Finset.range (ds.getD 0 dMat).cols,
      (ds.getD 0 dMat).entry i k *
        ((specForwardActs x [W0] [b0]).getD (([W0] : List Mat).length - 1) dMat).transpose.entry k j) = _
    rw [hdc, Finset.sum_range_one]
    rfl

/-- Witness for C10 with a 1-unit layer over a 2-dimensional input,
where the produced gradient shape (1, 1) differs from the (1, 2) shape
of `delta_0 · transpose(x)`. -/
theorem C10_single_layer_self_outer_product_witness :
    chainOk mat21.rows [mat12] [mat11] = true ∧
    ∃ loss Wg bg as,
      forward_backward mat21 mat11 [mat12] [mat11] = some (loss, Wg, bg) ∧
      cacheAux mat21 [mat12] [mat11] = some as ∧
      as.length = 1 ∧ Wg.length = 1 ∧ bg.length = 1 ∧
      (Wg.getD 0 dMat).rows = mat12.rows ∧ (Wg.getD 0 dMat).cols = mat12.rows ∧
      (∀ i j, (Wg.getD 0 dMat).entry i j =
        (bg.getD 0 dMat).entry i 0 * (as.getD 0 dMat).entry j 0) :=
  ⟨rfl, C10_single_layer_self_outer_product mat21 mat11 mat12 mat11 rfl rfl rfl rfl⟩

/-- C1 (refuting evaluation): at a concrete shape-compatible two-layer
network (2-dimensional input, layer widths 1 and 1), `forward_backward`
succeeds but returns a layer-0 weight gradient of shape (1, 1) although
weight 0 has shape (1, 2): the claimed per-layer shape equality fails
at layer 0. -/
theorem C1_wgrad_shape_eval :
    ∃ loss Wg ds,
      forward_backward mat21 mat11 [mat12, mat11] [mat11, mat11] = some (loss, Wg, ds) ∧
      (Wg.getD 0 dMat).rows = 1 ∧ (Wg.getD 0 dMat).cols = 1 ∧
      (Wg.getD 0 dMat).cols ≠ (([mat12, mat11] : List Mat).getD 0 dMat).cols := by
  obtain ⟨loss, Wg, ds, hfb, hca, hlen, hdslen, hWglen, heq, hdr, hdc, har⟩ :=
    fb_wgrad0 mat21 mat11 [mat12, mat11] [mat11, mat11] rfl rfl (by simp) rfl rfl
  have hrows : (Wg.getD 0 dMat).rows = 1 := by
    rw [heq]
    exact hdr
  have hcols : (Wg.getD 0 dMat).cols = 1 := by
    rw [heq]
    exact har
  refine ⟨loss, Wg, ds, hfb, hrows, hcols, ?_⟩
  rw [hcols]
  decide

/-- C2 (refuting evaluation): at the same concrete two-layer network,
the layer-0 weight gradient `forward_backward` computes is the outer
product of the layer-0 error term with the LAST cached activation
(Python `a[-1]`), and its column count (1) differs from the input
vector's row count (2), so it is not `delta_0 · transpose(x)`. -/
theorem C2_wgrad_uses_last_activation_eval :
    ∃ loss Wg ds,
      forward_backward mat21 mat11 [mat12, mat11] [mat11, mat11] = some (loss, Wg, ds) ∧
      cacheAux mat21 [mat12, mat11] [mat11, mat11] =
        some (specForwardActs mat21 [mat12, mat11] [mat11, mat11]) ∧
      Wg.getD 0 dMat = matmulT (ds.getD 0 dMat)
        ((specForwardActs mat21 [mat12, mat11] [mat11, mat11]).getD 1 dMat).transpose ∧
      (Wg.getD 0 dMat).cols ≠ mat21.rows := by
  obtain ⟨loss, Wg, ds, hfb, hca, hlen, hdslen, hWglen, heq, hdr, hdc, har⟩ :=
    fb_wgrad0 mat21 mat11 [mat12, mat11] [mat11, mat11] rfl rfl (by simp) rfl rfl
  have hcols : (Wg.getD 0 dMat).cols = 1 := by
    rw [heq]
    exact har
  refine ⟨loss, Wg, ds, hfb, hca, heq, ?_⟩
  rw [hcols]
  decide
